import Mathlib

/-!
Verification of the transactional object-graph core of `all-is-cubes`:
inventory transactions (`inv/inventory.rs`), cube/space transactions
(`space/space_txn.rs`), and the `Universe` container (`universe.rs`).

Rust data is embedded shallowly: `u16` counts become `Nat` (additions in the
source are bounded by the stack limit, so no wrap-around is reachable there),
`BTreeMap`s become key-unique association lists, fallible functions return
`Except`/`Option`, and functions mutating through `&mut` return their updated
arguments.
-/

namespace AllIsCubes

/-- Error type returned by a transaction `check` (from `transaction.rs`,
whose declaration is used by the embedded sources): a location tag plus a
free-text problem description. -/
structure PreconditionFailed where
  location : String
  problem : String
  deriving DecidableEq, Repr

/-- Error type returned by `check_merge` (from `transaction.rs`): a unit-like
struct carrying no data. -/
structure TransactionConflict where
  deriving DecidableEq, Repr

/-! ## Inventory data model (`inv/inventory.rs`) -/

/-- `StackLimit` from `inv/inventory.rs`: a limit on how many identical items
may share one slot. -/
inductive StackLimit where
  | one
  | standard
  deriving DecidableEq, Repr

/-- `StackLimit::get` from `inv/inventory.rs`. -/
def StackLimit.get : StackLimit → Nat
  | .one => 1
  | .standard => 100

/-- Modelled from the spec: the item type `Tool` (its module is not under
`src/`; only `inv/inventory.rs` is). The transaction machinery uses a tool
only through equality and its per-tool stack limit, so a tool is an abstract
identifier together with its `StackLimit`. -/
structure Tool where
  id : Nat
  limit : StackLimit
  deriving DecidableEq, Repr

/-- Modelled from the spec: `Tool::stack_limit`, returning the slot-sharing
limit for this tool. -/
def Tool.stack_limit (t : Tool) : StackLimit := t.limit

/-- `Slot` from `inv/inventory.rs`: empty, or a stack of identical tools.
The source count is `NonZeroU16`; here it is a `Nat` (source invariant:
`1 ≤ count ≤ 65535`). -/
inductive Slot where
  | empty
  | stack (count : Nat) (tool : Tool)
  deriving DecidableEq, Repr

/-- `Slot::count` from `inv/inventory.rs`. -/
def Slot.count : Slot → Nat
  | .empty => 0
  | .stack c _ => c

/-- `Slot::stack` (the checked constructor) from `inv/inventory.rs`:
a zero count yields `Empty`. -/
def Slot.mkStack (count : Nat) (tool : Tool) : Slot :=
  if count = 0 then .empty else .stack count tool

/-- `<Slot as From<Tool>>::from` from `inv/inventory.rs`: one copy of the tool. -/
def Slot.ofTool (tool : Tool) : Slot := .stack 1 tool

/-- `Slot::unload_to` from `inv/inventory.rs`, with the two `&mut` arguments
returned: `(updated self, updated destination, whether anything moved)`.
`saturating_sub` is `Nat` subtraction. -/
def Slot.unload_to : Slot → Slot → Slot × Slot × Bool
  | .empty, d => (.empty, d, false)
  | .stack c t, .empty => (.empty, .stack c t, true)
  | .stack sc st, .stack dc dt =>
    if st = dt then
      let maxStack := dt.stack_limit.get
      let countToMove := min sc (maxStack - dc)
      if countToMove = 0 then
        (.stack sc st, .stack dc dt, false)
      else if countToMove < sc then
        (.stack (sc - countToMove) st, .stack (dc + countToMove) dt, true)
      else
        (.empty, .stack (dc + countToMove) dt, true)
    else
      (.stack sc st, .stack dc dt, false)

/-- `Inventory` from `inv/inventory.rs`: a vector of slots. -/
structure Inventory where
  slots : List Slot
  deriving DecidableEq, Repr

/-- `InventoryChange` from `inv/inventory.rs`: which slots changed. -/
structure InventoryChange where
  slots : List Nat
  deriving DecidableEq, Repr

/-- `InventoryCheck` from `inv/inventory.rs`: the `CommitCheck` token holding
the full prospective post-state and the change notification. -/
structure InventoryCheck where
  new : List Slot
  change : InventoryChange
  deriving DecidableEq, Repr

/-- `InventoryTransaction` from `inv/inventory.rs`. The `BTreeMap<usize, (Slot,
Slot)>` of explicit replacements is a key-unique association list
`(slot index, (expected old, new))`, listed in the map iteration order. -/
structure InventoryTransaction where
  replace : List (Nat × Slot × Slot)
  insert : List Slot
  deriving DecidableEq, Repr

/-- `InventoryTransaction::default()`: the empty transaction. -/
def InventoryTransaction.default : InventoryTransaction := ⟨[], []⟩

/-- The slot indices named by a replacement list. -/
def keysOfR (l : List (Nat × Slot × Slot)) : List Nat := l.map (fun e => e.1)

/-- `InventoryTransaction::insert` from `inv/inventory.rs`: stacks with zero
count are filtered out. (The source takes `impl Into<Slot>`; here the
conversion to `Slot` has already happened.) -/
def InventoryTransaction.mkInsert (items : List Slot) : InventoryTransaction :=
  ⟨[], items.filter (fun s => decide (0 < s.count))⟩

/-- `InventoryTransaction::replace` from `inv/inventory.rs`: a singleton
replacement map. -/
def InventoryTransaction.mkReplace (slot : Nat) (old new : Slot) : InventoryTransaction :=
  ⟨[(slot, old, new)], []⟩

/-- The `.replace` loop of `InventoryTransaction::check`: walk the explicit
replacements over the working copy of the slots, recording changed indices. -/
def applyReplaces : List (Nat × Slot × Slot) → List Slot → List Nat →
    Except PreconditionFailed (List Slot × List Nat)
  | [], slots, changed => .ok (slots, changed)
  | (index, old, new) :: rest, slots, changed =>
    match slots[index]? with
    | none => .error ⟨"Inventory", "slot out of bounds"⟩
    | some actualOld =>
      if actualOld = old then
        applyReplaces rest (slots.set index new) (changed ++ [index])
      else
        .error ⟨"Inventory", "old slot not as expected"⟩

/-- The inner loop of the `.insert` pass of `InventoryTransaction::check`:
unload `stack` into each slot in turn (`index` is the position of the first
slot of `slots` in the whole inventory), stopping once the stack is empty.
Returns the remaining stack, the updated slots, and the changed indices. -/
def unloadAll : Slot → List Slot → Nat → Slot × List Slot × List Nat
  | stack, [], _ => (stack, [], [])
  | stack, s :: rest, index =>
    if stack = Slot.empty then
      (stack, s :: rest, [])
    else
      let r := stack.unload_to s
      let rr := unloadAll r.1 rest (index + 1)
      (rr.1, r.2.1 :: rr.2.1, (if r.2.2 then [index] else []) ++ rr.2.2)

/-- The `.insert` pass of `InventoryTransaction::check`: each stack of the
insertion list must unload completely, otherwise the check fails. -/
def applyInserts : List Slot → List Slot → List Nat →
    Except PreconditionFailed (List Slot × List Nat)
  | [], slots, changed => .ok (slots, changed)
  | stack :: more, slots, changed =>
    let r := unloadAll stack slots 0
    if r.1 = Slot.empty then
      applyInserts more r.2.1 (changed ++ r.2.2)
    else
      .error ⟨"Inventory", "insufficient empty slots"⟩

/-- `InventoryTransaction::check` from `inv/inventory.rs`: empty transactions
short-circuit with no token; otherwise the whole post-state is simulated on a
clone of the slots. -/
def InventoryTransaction.check (t : InventoryTransaction) (inventory : Inventory) :
    Except PreconditionFailed (Option InventoryCheck) :=
  if t.replace.isEmpty && t.insert.isEmpty then
    .ok none
  else
    match applyReplaces t.replace inventory.slots [] with
    | .error e => .error e
    | .ok (slots, changed) =>
      match applyInserts t.insert slots changed with
      | .error e => .error e
      | .ok (slots2, changed2) => .ok (some ⟨slots2, ⟨changed2⟩⟩)

/-- `InventoryTransaction::commit` from `inv/inventory.rs`, with the `&mut`
inventory and the stream of emitted outputs returned: when the check token is
present the stored post-state is installed and the single change record is
emitted; otherwise nothing happens. -/
def InventoryTransaction.commit (_t : InventoryTransaction) (inventory : Inventory) :
    Option InventoryCheck → Inventory × List InventoryChange
  | some ⟨new, change⟩ => (⟨new⟩, [change])
  | none => (inventory, [])

/-- `Transaction::execute` (check then commit) for `InventoryTransaction`,
with the target threaded through: on a failed check the target is returned
untouched and no outputs are produced. -/
def InventoryTransaction.executeOn (t : InventoryTransaction) (inventory : Inventory) :
    Inventory × Option (List InventoryChange) :=
  match t.check inventory with
  | .error _ => (inventory, none)
  | .ok chk =>
    let r := t.commit inventory chk
    (r.1, some r.2)

/-- The final state of `execute` for `InventoryTransaction`: `some` final
inventory on success, `none` on a failed check. -/
def InventoryTransaction.executeState (t : InventoryTransaction) (inventory : Inventory) :
    Option Inventory :=
  match t.check inventory with
  | .error _ => none
  | .ok chk => some (t.commit inventory chk).1

/-- `InventoryTransaction::check` with the borrowed target threaded through,
mirroring the source signature `check(&self, inventory: &Inventory)`: the
target is returned alongside the result. -/
def InventoryTransaction.checkOn (t : InventoryTransaction) (inventory : Inventory) :
    Inventory × Except PreconditionFailed (Option InventoryCheck) :=
  match t.check inventory with
  | .error e => (inventory, .error e)
  | .ok chk => (inventory, .ok chk)

/-- `<InventoryTransaction as Merge>::check_merge` from `inv/inventory.rs`:
conflict iff some explicit replacement key occurs in both transactions. -/
def InventoryTransaction.check_merge (t other : InventoryTransaction) :
    Except TransactionConflict Unit :=
  if t.replace.any (fun e => other.replace.any (fun f => f.1 == e.1)) then
    .error ⟨⟩
  else
    .ok ()

/-- `BTreeMap::insert` on the association-list model: overwrite the entry with
the same key if present, otherwise append. -/
def insertR (l : List (Nat × Slot × Slot)) (e : Nat × Slot × Slot) :
    List (Nat × Slot × Slot) :=
  if l.any (fun f => f.1 == e.1) then
    l.map (fun f => if f.1 == e.1 then e else f)
  else
    l ++ [e]

/-- `<InventoryTransaction as Merge>::commit_merge` from `inv/inventory.rs`:
`self.replace.extend(other.replace)` and `self.insert.extend(other.insert)`. -/
def InventoryTransaction.commit_merge (t other : InventoryTransaction) :
    InventoryTransaction :=
  ⟨other.replace.foldl insertR t.replace, t.insert ++ other.insert⟩

/-- Total item count of a slot list. -/
def totalCount (slots : List Slot) : Nat := (slots.map Slot.count).sum

/-! ## Space transactions (`space/space_txn.rs`)

The transactions are generic in the block type `B`: the source manipulates
`Block` values only through cloning and equality, so every theorem below holds
for an arbitrary type with decidable equality.

`SpaceTransaction` also carries a `BehaviorSetTransaction` component
(`behavior.rs` is not under `src/`); the claims under study concern only the
per-cube map, so the embedded transaction consists of the `cubes` map alone. -/

/-- A cube position, `[GridCoordinate; 3]` in the source. -/
abbrev Cube : Type := Int × Int × Int

/-- `CubeTransaction` from `space/space_txn.rs`: optional precondition `old`
and optional replacement `new` for one cube. -/
structure CubeTransaction (B : Type) where
  old : Option B
  new : Option B
  deriving DecidableEq, Repr

/-- The first conflict test of `CubeTransaction::check_merge`: both `old`
preconditions present and different. -/
def oldConflict {B : Type} [DecidableEq B] : Option B → Option B → Bool
  | some a, some b => decide (a ≠ b)
  | _, _ => false

/-- `<CubeTransaction as Merge>::check_merge` from `space/space_txn.rs`:
conflict on incompatible `old` preconditions, or on two `new` replacements
(even equal ones). -/
def CubeTransaction.check_merge {B : Type} [DecidableEq B]
    (t other : CubeTransaction B) : Except TransactionConflict Unit :=
  if oldConflict t.old other.old then
    .error ⟨⟩
  else if t.new.isSome && other.new.isSome then
    .error ⟨⟩
  else
    .ok ()

/-- `<CubeTransaction as Merge>::commit_merge` from `space/space_txn.rs`:
fields of `other` take precedence when present. -/
def CubeTransaction.commit_merge {B : Type} (t other : CubeTransaction B) :
    CubeTransaction B :=
  ⟨if other.old.isSome then other.old else t.old,
   if other.new.isSome then other.new else t.new⟩

/-- First-match lookup in an association list keyed by cubes. -/
def lookupA {V : Type} (c : Cube) : List (Cube × V) → Option V
  | [] => none
  | e :: rest => if e.1 = c then some e.2 else lookupA c rest

/-- Pointwise update of an association list: every entry keyed `c` is replaced
by `(c, b)`. -/
def mapset {V : Type} (c : Cube) (b : V) (l : List (Cube × V)) : List (Cube × V) :=
  l.map (fun e => if e.1 = c then (c, b) else e)

/-- Modelled from the spec: the keyed-slot target `Space` (the `Space` type
itself is not under `src/`, only its transaction is). Per the spec it is a
finite keyed store: each in-bounds cube holds a value; out-of-range keys are
errors. The palette indirection of the source is dropped; `entries` maps each
in-bounds cube directly to its block. -/
structure Space (B : Type) where
  entries : List (Cube × B)
  deriving DecidableEq, Repr

/-- Reading one cube of a `Space`: `none` when out of bounds. -/
def Space.get {B : Type} (s : Space B) (c : Cube) : Option B :=
  lookupA c s.entries

/-- Modelled from the spec: `Space::set`, writing one cube, which fails for an
out-of-bounds cube. -/
def Space.set {B : Type} (s : Space B) (c : Cube) (b : B) : Option (Space B) :=
  if (s.get c).isSome then some ⟨mapset c b s.entries⟩ else none

/-- `SpaceTransaction` from `space/space_txn.rs`: the `BTreeMap` from cubes to
`CubeTransaction`s as a key-unique association list (see the section comment
about the omitted `behaviors` component). -/
structure SpaceTransaction (B : Type) where
  cubes : List (Cube × CubeTransaction B)
  deriving DecidableEq, Repr

/-- The loop of `SpaceTransaction::check`: every cube must be in bounds, and
when an `old` precondition is present the stored block must equal it. -/
def checkCubes {B : Type} [DecidableEq B] :
    List (Cube × CubeTransaction B) → Space B → Except PreconditionFailed Unit
  | [], _ => .ok ()
  | (c, ct) :: rest, s =>
    match s.get c with
    | some cur =>
      match ct.old with
      | some o =>
        if cur = o then checkCubes rest s
        else .error ⟨"Space", "existing block not as expected"⟩
      | none => checkCubes rest s
    | none => .error ⟨"Space", "cube out of space bounds"⟩

/-- `SpaceTransaction::check` from `space/space_txn.rs` (cube part). -/
def SpaceTransaction.check {B : Type} [DecidableEq B]
    (t : SpaceTransaction B) (s : Space B) : Except PreconditionFailed Unit :=
  checkCubes t.cubes s

/-- The loop of `SpaceTransaction::commit`: apply every `new` block via
`Space::set`, propagating its failure. -/
def commitCubes {B : Type} :
    List (Cube × CubeTransaction B) → Space B → Option (Space B)
  | [], s => some s
  | (c, ct) :: rest, s =>
    match ct.new with
    | some b =>
      match s.set c b with
      | some s2 => commitCubes rest s2
      | none => none
    | none => commitCubes rest s

/-- `SpaceTransaction::commit` from `space/space_txn.rs` (cube part). -/
def SpaceTransaction.commit {B : Type} (t : SpaceTransaction B) (s : Space B) :
    Option (Space B) :=
  commitCubes t.cubes s

/-- The final state of `execute` (check then commit) for a space transaction:
`some` final space on success, `none` on failure. -/
def SpaceTransaction.executeState {B : Type} [DecidableEq B]
    (t : SpaceTransaction B) (s : Space B) : Option (Space B) :=
  match t.check s with
  | .ok _ => t.commit s
  | .error _ => none

/-- `SpaceTransaction::check` with the borrowed target threaded through,
mirroring the source signature `check(&self, space: &Space)`. -/
def SpaceTransaction.checkOn {B : Type} [DecidableEq B]
    (t : SpaceTransaction B) (s : Space B) :
    Space B × Except PreconditionFailed Unit :=
  match t.check s with
  | .error e => (s, .error e)
  | .ok u => (s, .ok u)

/-- The loop of `SpaceTransaction::check_merge`: delegate to
`CubeTransaction::check_merge` on every shared cube. (The source iterates
over the smaller of the two maps as an optimization; the conflict conditions
are symmetric, so iterating the first map is equivalent.) -/
def checkMergeCubes {B : Type} [DecidableEq B] :
    List (Cube × CubeTransaction B) → List (Cube × CubeTransaction B) →
    Except TransactionConflict Unit
  | [], _ => .ok ()
  | (c, ct) :: rest, others =>
    match lookupA c others with
    | some ot =>
      match ct.check_merge ot with
      | .ok _ => checkMergeCubes rest others
      | .error e => .error e
    | none => checkMergeCubes rest others

/-- `<SpaceTransaction as Merge>::check_merge` from `space/space_txn.rs`
(cube part). -/
def SpaceTransaction.check_merge {B : Type} [DecidableEq B]
    (t other : SpaceTransaction B) : Except TransactionConflict Unit :=
  checkMergeCubes t.cubes other.cubes

/-- `BTreeMap::entry`-style insertion used by `SpaceTransaction::commit_merge`:
merge into an existing entry with the same cube, else append. -/
def insertCube {B : Type} (l : List (Cube × CubeTransaction B))
    (e : Cube × CubeTransaction B) : List (Cube × CubeTransaction B) :=
  if (lookupA e.1 l).isSome then
    l.map (fun f => if f.1 = e.1 then (f.1, f.2.commit_merge e.2) else f)
  else
    l ++ [e]

/-- `<SpaceTransaction as Merge>::commit_merge` from `space/space_txn.rs`
(cube part): fold the entries of `other` into `t` cube by cube. -/
def SpaceTransaction.commit_merge {B : Type} (t other : SpaceTransaction B) :
    SpaceTransaction B :=
  ⟨other.cubes.foldl insertCube t.cubes⟩

/-- The cubes named by a cube-transaction list. -/
def keysT {B : Type} (l : List (Cube × CubeTransaction B)) : List Cube :=
  l.map (fun e => e.1)

/-! ## The `Universe` container (`universe.rs`)

`universe.rs` is under `src/`, but its helper modules `universe/members.rs`
and `universe/uref.rs` are not; the storage tables, the reference-handle
bookkeeping, and the typed `insert` wrapper are modelled from the spec as
noted on each definition. Member values are irrelevant to the claims and are
abstract identifiers. -/

/-- `Name` from `universe.rs`: explicit, container-assigned, or pending. -/
inductive Name where
  | specific (s : String)
  | anonym (n : Nat)
  | pending
  deriving DecidableEq, Repr

/-- `InsertErrorKind` from `universe.rs`. -/
inductive InsertErrorKind where
  | alreadyExists
  | invalidName
  | gone
  | alreadyInserted
  deriving DecidableEq, Repr

/-- `InsertError` from `universe.rs`. -/
structure InsertError where
  name : Name
  kind : InsertErrorKind
  deriving DecidableEq, Repr

/-- Modelled from the spec: a Root Handle (`URootRef`, from the missing
`universe/uref.rs`): the owning slot for one member, carrying the member value
(an abstract identifier) and the count of outstanding reference handles (the
weak-reference count consulted by `gc_members`). -/
structure URoot where
  value : Nat
  weakRefCount : Nat
  deriving DecidableEq, Repr

/-- Modelled from the spec: one member table (`Storage<T>` from the missing
`universe/members.rs`, a `BTreeMap<Name, URootRef<T>>`) as a key-unique
association list. -/
abbrev Storage : Type := List (Name × URoot)

/-- Whether a table has an entry with the given name. -/
def containsName (table : Storage) (n : Name) : Bool :=
  table.any (fun e => e.1 == n)

/-- `BTreeMap::remove` on the table model: drop the entry with this name. -/
def removeName (table : Storage) (n : Name) : Storage :=
  table.filter (fun e => e.1 != n)

/-- `UniverseTables` from the missing `universe/members.rs` (its three fields
are named in `universe.rs` itself): one table per member type. -/
structure UniverseTables where
  blocks : Storage
  characters : Storage
  spaces : Storage
  deriving DecidableEq, Repr

/-- The three member types of `UniverseTables`. -/
inductive MemberType where
  | blocks
  | characters
  | spaces
  deriving DecidableEq, Repr

/-- `Universe` from `universe.rs` (the fields relevant to the claims: the
`id` and `session_step_time` diagnostics are dropped). -/
structure Universe where
  tables : UniverseTables
  next_anonym : Nat
  wants_gc : Bool
  deriving DecidableEq, Repr

/-- Select one member table of a universe. -/
def Universe.table (u : Universe) : MemberType → Storage
  | .blocks => u.tables.blocks
  | .characters => u.tables.characters
  | .spaces => u.tables.spaces

/-- `Universe::new` from `universe.rs`: empty tables, counter zero, no GC
wanted. -/
def Universe.new : Universe := ⟨⟨[], [], []⟩, 0, false⟩

/-- `Universe::get_any` from `universe.rs`, reduced to presence: whether any
of the three tables (checked in source order) has a member with this name. -/
def Universe.get_any (u : Universe) (n : Name) : Bool :=
  containsName u.tables.blocks n || containsName u.tables.characters n ||
    containsName u.tables.spaces n

/-- `Universe::allocate_name` from `universe.rs`: `Specific` requires global
freshness, `Anonym` is rejected, `Pending` allocates the next anonym and bumps
the counter. Returns the allocated name together with the updated universe. -/
def Universe.allocate_name (u : Universe) (proposedName : Name) :
    Except InsertError (Name × Universe) :=
  match proposedName with
  | .specific s =>
    if u.get_any (.specific s) then
      .error ⟨.specific s, .alreadyExists⟩
    else
      .ok (.specific s, u)
  | .anonym k => .error ⟨.anonym k, .invalidName⟩
  | .pending =>
    .ok (.anonym u.next_anonym, { u with next_anonym := u.next_anonym + 1 })

/-- Append an entry to the table of the given member type. -/
def Universe.addEntry (u : Universe) (ty : MemberType) (n : Name) (r : URoot) :
    Universe :=
  match ty with
  | .blocks => { u with tables.blocks := u.tables.blocks ++ [(n, r)] }
  | .characters => { u with tables.characters := u.tables.characters ++ [(n, r)] }
  | .spaces => { u with tables.spaces := u.tables.spaces ++ [(n, r)] }

/-- Modelled from the spec: `UniverseOps::insert` (from the missing
`universe/members.rs`): allocate the name via `Universe::allocate_name`, store
a new Root Handle whose weak-reference count starts at 1 for the returned
derived reference handle, set the wants-GC flag, and return the handle
(identified by its name) with the updated universe. -/
def Universe.insert (u : Universe) (ty : MemberType) (n : Name) (v : Nat) :
    Except InsertError (Name × Universe) :=
  match u.allocate_name n with
  | .error e => .error e
  | .ok (n2, u2) =>
    .ok (n2, { u2.addEntry ty n2 ⟨v, 1⟩ with wants_gc := true })

/-- `Universe::delete` from `universe.rs`: remove the entry from the first
table containing the name (short-circuiting `||` in the source); returns the
updated universe and whether anything was removed. -/
def Universe.delete (u : Universe) (n : Name) : Universe × Bool :=
  if containsName u.tables.blocks n then
    ({ u with tables.blocks := removeName u.tables.blocks n }, true)
  else if containsName u.tables.characters n then
    ({ u with tables.characters := removeName u.tables.characters n }, true)
  else if containsName u.tables.spaces n then
    ({ u with tables.spaces := removeName u.tables.spaces n }, true)
  else
    (u, false)

/-- `gc_members` from `universe.rs`: collect the names whose root has a zero
weak-reference count, then remove each of them. -/
def gc_members (table : Storage) : Storage :=
  let dead := (table.filter (fun e => e.2.weakRefCount == 0)).map (fun e => e.1)
  dead.foldl removeName table

/-- `Universe::gc` from `universe.rs`: sweep all three tables. -/
def Universe.gc (u : Universe) : Universe :=
  { u with
    tables.blocks := gc_members u.tables.blocks
    tables.characters := gc_members u.tables.characters
    tables.spaces := gc_members u.tables.spaces }

/-- The garbage-collection prologue of `Universe::step` from `universe.rs`:
when the wants-GC flag is set, run `gc` and clear the flag, before any member
is stepped. -/
def Universe.gcPhase (u : Universe) : Universe :=
  if u.wants_gc then { u.gc with wants_gc := false } else u

/-- `Universe::step` from `universe.rs`, with the member-stepping body (which
steps spaces and characters and applies their transactions; those member types
are outside this development) abstracted as a function `f` applied after the
garbage-collection prologue. -/
def Universe.step (f : Universe → Universe) (u : Universe) : Universe :=
  f u.gcPhase

/-- Key uniqueness of one table (the `BTreeMap` invariant). -/
def storageKeysNodup (table : Storage) : Prop :=
  (table.map (fun e => e.1)).Nodup

/-- Invariant of the anonymous-name counter: every `Anonym` name stored in any
table is strictly below `next_anonym`. It holds for `Universe::new` and is
preserved by every operation (part of claim C7). -/
def anonsBounded (u : Universe) : Prop :=
  ∀ (ty : MemberType) (k : Nat) (r : URoot),
    (Name.anonym k, r) ∈ u.table ty → k < u.next_anonym

/-- The slots component of an `applyReplaces`/`applyInserts` result, or `none`
on error. -/
def stateOf : Except PreconditionFailed (List Slot × List Nat) → Option (List Slot)
  | .ok p => some p.1
  | .error _ => none

/-- Whether every explicit replacement finds its expected old slot (in bounds)
in the given slot list. -/
def replacePreB (l : List (Nat × Slot × Slot)) (slots : List Slot) : Bool :=
  l.all (fun e => slots[e.1]? == some e.2.1)

/-- The new-slot writes of a replacement list, applied unconditionally. -/
def foldSetR (l : List (Nat × Slot × Slot)) (slots : List Slot) : List Slot :=
  l.foldl (fun s e => s.set e.1 e.2.2) slots

/-- Sequential execution of two inventory transactions (final state only):
execute `t1`, and on success execute `t2` on the result. -/
def seqInv (t1 t2 : InventoryTransaction) (inv : Inventory) : Option Inventory :=
  (t1.executeState inv).bind t2.executeState

/-- Sequential execution of two inventory transactions as separate Rust
`execute` calls: a failed second transaction leaves the effects of the first
in place. Returns the final inventory state. -/
def seqInvOn (t1 t2 : InventoryTransaction) (inv : Inventory) : Inventory :=
  (t2.executeOn (t1.executeOn inv).1).1

/-- Whether `SpaceTransaction::check` would succeed: every cube in bounds and
every present `old` precondition matched. -/
def checkOkB {B : Type} [DecidableEq B] (l : List (Cube × CubeTransaction B))
    (s : Space B) : Bool :=
  l.all (fun e =>
    match s.get e.1, e.2.old with
    | some cur, some o => cur == o
    | some _, none => true
    | none, _ => false)

/-- The `new`-block writes of a cube-transaction list, applied
unconditionally. -/
def applyAllC {B : Type} (l : List (Cube × CubeTransaction B)) (s : Space B) :
    Space B :=
  l.foldl
    (fun s2 e =>
      match e.2.new with
      | some b => ⟨mapset e.1 b s2.entries⟩
      | none => s2)
    s

/-- Sequential execution of two space transactions (final state only). -/
def seqSpace {B : Type} [DecidableEq B] (t1 t2 : SpaceTransaction B)
    (s : Space B) : Option (Space B) :=
  (t1.executeState s).bind t2.executeState

/-! ## Supporting lemmas -/

theorem oldConflict_eq_true_iff {B : Type} [DecidableEq B] (o1 o2 : Option B) :
    oldConflict o1 o2 = true ↔ ∃ a b, o1 = some a ∧ o2 = some b ∧ a ≠ b := by
  cases o1 <;> cases o2 <;> simp [oldConflict]

theorem all_congr_of_eq {α : Type} {l : List α} {p q : α → Bool}
    (h : ∀ a ∈ l, p a = q a) : l.all p = l.all q := by
  induction l with
  | nil => rfl
  | cons a rest ih =>
    simp only [List.all_cons, h a (List.mem_cons_self a rest),
      ih (fun b hb => h b (List.mem_cons_of_mem a hb))]

theorem unload_to_conserve (s d : Slot) :
    (s.unload_to d).1.count + (s.unload_to d).2.1.count = s.count + d.count := by
  cases s with
  | empty => simp [Slot.unload_to, Slot.count]
  | stack sc st =>
    cases d with
    | empty => simp [Slot.unload_to, Slot.count]
    | stack dc dt =>
      by_cases h : st = dt
      · simp only [Slot.unload_to, if_pos h]
        split_ifs with h1 h2 <;> simp only [Slot.count] <;> omega
      · simp [Slot.unload_to, h, Slot.count]

theorem unloadAll_conserve (st : Slot) (slots : List Slot) (idx : Nat) :
    (unloadAll st slots idx).1.count + totalCount (unloadAll st slots idx).2.1 =
      st.count + totalCount slots := by
  induction slots generalizing st idx with
  | nil => simp [unloadAll, totalCount]
  | cons s rest ih =>
    by_cases h : st = Slot.empty
    · simp [unloadAll, h, totalCount]
    · have hc := unload_to_conserve st s
      have hr := ih (st.unload_to s).1 (idx + 1)
      simp only [unloadAll, if_neg h, totalCount, List.map_cons, List.sum_cons]
      simp only [totalCount] at hc hr ⊢
      omega

theorem totalCount_applyInserts (items slots2 : List Slot) (c : List Nat)
    (r : List Slot × List Nat) (h : applyInserts items slots2 c = .ok r) :
    totalCount r.1 = totalCount slots2 + totalCount items := by
  induction items generalizing slots2 c with
  | nil =>
    simp only [applyInserts] at h
    injection h with h2
    rw [← h2]
    simp [totalCount]
  | cons st more ih =>
    simp only [applyInserts] at h
    split_ifs at h with he
    · have hrec := ih (unloadAll st slots2 0).2.1 (c ++ (unloadAll st slots2 0).2.2) h
      have hcons := unloadAll_conserve st slots2 0
      rw [he] at hcons
      simp only [Slot.count, totalCount, List.map_cons, List.sum_cons] at hcons hrec ⊢
      omega

theorem replacePreB_set_notMem {rest : List (Nat × Slot × Slot)} {i : Nat}
    {n : Slot} {slots : List Slot} (hi : i ∉ keysOfR rest) :
    replacePreB rest (slots.set i n) = replacePreB rest slots := by
  refine all_congr_of_eq fun e he => ?_
  have : i ≠ e.1 := fun hie => hi (hie ▸ List.mem_map.2 ⟨e, he, rfl⟩)
  rw [List.getElem?_set_ne this]

theorem stateOf_applyReplaces (l : List (Nat × Slot × Slot)) (slots : List Slot)
    (c : List Nat) (h : (keysOfR l).Nodup) :
    stateOf (applyReplaces l slots c) =
      if replacePreB l slots then some (foldSetR l slots) else none := by
  induction l generalizing slots c with
  | nil => simp [applyReplaces, stateOf, replacePreB, foldSetR]
  | cons e rest ih =>
    obtain ⟨i, o, n⟩ := e
    have hkeys : keysOfR ((i, o, n) :: rest) = i :: keysOfR rest := rfl
    rw [hkeys, List.nodup_cons] at h
    simp only [applyReplaces]
    split
    · rename_i hg
      simp [stateOf, replacePreB, List.all_cons, hg]
    · rename_i a hg
      by_cases hao : a = o
      · rw [if_pos hao]
        rw [ih (slots.set i n) (c ++ [i]) h.2]
        rw [replacePreB_set_notMem h.1]
        have hpre : replacePreB ((i, o, n) :: rest) slots = replacePreB rest slots := by
          simp [replacePreB, List.all_cons, hg, hao]
        rw [hpre]
        have hfold : foldSetR ((i, o, n) :: rest) slots = foldSetR rest (slots.set i n) := rfl
        rw [hfold]
      · rw [if_neg hao]
        have hpre : replacePreB ((i, o, n) :: rest) slots = false := by
          simp [replacePreB, List.all_cons, hg, hao]
        simp [stateOf, hpre]

/-! ## Claims -/

/-- **C1.** For keyed-slot transactions, `check_merge` conflicts exactly when
both sides specify a new value for the same key (even equal new values), or
both specify different expected-old values for the same key; matching
expected-old values with at most one new value merge cleanly. For
`CubeTransaction` the two conditions are read off the two fields; for
`InventoryTransaction` every replacement entry carries a new value, so the
condition is exactly a shared replacement key. -/
theorem c1_check_merge_conflict_iff (B : Type) [DecidableEq B] :
    (∀ t1 t2 : CubeTransaction B,
      (t1.check_merge t2 = .error ⟨⟩ ↔
        (t1.new.isSome = true ∧ t2.new.isSome = true) ∨
          ∃ a b, t1.old = some a ∧ t2.old = some b ∧ a ≠ b) ∧
      (t1.old = t2.old → ¬(t1.new.isSome = true ∧ t2.new.isSome = true) →
        t1.check_merge t2 = .ok ())) ∧
    (∀ t1 t2 : InventoryTransaction,
      t1.check_merge t2 = .error ⟨⟩ ↔
        ∃ k, k ∈ keysOfR t1.replace ∧ k ∈ keysOfR t2.replace) := by
  constructor
  · intro t1 t2
    constructor
    · unfold CubeTransaction.check_merge
      split_ifs with h1 h2
      · rw [oldConflict_eq_true_iff] at h1
        exact ⟨fun _ => Or.inr h1, fun _ => rfl⟩
      · rw [Bool.and_eq_true] at h2
        exact ⟨fun _ => Or.inl h2, fun _ => rfl⟩
      · rw [oldConflict_eq_true_iff] at h1
        rw [Bool.and_eq_true] at h2
        constructor
        · intro h; exact h.elim
        · rintro (hnew | hold)
          · exact absurd hnew h2
          · exact absurd hold h1
    · intro hold hnew
      unfold CubeTransaction.check_merge
      rw [if_neg, if_neg]
      · rwa [Bool.and_eq_true]
      · rw [oldConflict_eq_true_iff]
        rintro ⟨a, b, h1, h2, hne⟩
        rw [hold, h2, Option.some_inj] at h1
        exact hne h1.symm
  · intro t1 t2
    unfold InventoryTransaction.check_merge
    split_ifs with h
    · simp only [List.any_eq_true, beq_iff_eq] at h
      obtain ⟨e, he, f, hf, hef⟩ := h
      refine ⟨fun _ => ⟨e.1, List.mem_map.2 ⟨e, he, rfl⟩, List.mem_map.2 ⟨f, hf, hef⟩⟩,
        fun _ => rfl⟩
    · simp only [List.any_eq_true, beq_iff_eq] at h
      push_neg at h
      constructor
      · intro hcontra; exact hcontra.elim
      · rintro ⟨k, hk1, hk2⟩
        obtain ⟨e, he, hek⟩ := List.mem_map.1 hk1
        obtain ⟨f, hf, hfk⟩ := List.mem_map.1 hk2
        exact absurd (by rw [hfk, hek]) (h e he f hf)

/-- Witness for C1: a merge with matching `old`s and one `new` succeeds, and a
merge with two equal `new`s conflicts. -/
theorem c1_check_merge_conflict_iff_witness :
    (CubeTransaction.check_merge (B := Nat) ⟨some 1, none⟩ ⟨some 1, some 2⟩ = .ok ()) ∧
    (CubeTransaction.check_merge (B := Nat) ⟨none, some 2⟩ ⟨none, some 2⟩ = .error ⟨⟩) :=
  ⟨((c1_check_merge_conflict_iff Nat).1 ⟨some 1, none⟩ ⟨some 1, some 2⟩).2 rfl
      (by decide),
    ((c1_check_merge_conflict_iff Nat).1 ⟨none, some 2⟩ ⟨none, some 2⟩).1.mpr
      (Or.inl (by decide))⟩

/-- **C2.** `check` never mutates its target: threading the borrowed target
through `check` returns it unchanged for both transaction types, whether the
check succeeds or fails; in particular an `execute` whose check fails returns
the untouched target and no outputs. -/
theorem c2_check_never_mutates :
    (∀ (B : Type) [DecidableEq B] (t : SpaceTransaction B) (s : Space B),
      (t.checkOn s).1 = s) ∧
    (∀ (t : InventoryTransaction) (inv : Inventory), (t.checkOn inv).1 = inv) ∧
    (∀ (t : InventoryTransaction) (inv : Inventory) (e : PreconditionFailed),
      t.check inv = .error e → t.executeOn inv = (inv, none)) := by
  refine ⟨?_, ?_, ?_⟩
  · intro B _ t s
    unfold SpaceTransaction.checkOn
    split <;> rfl
  · intro t inv
    unfold InventoryTransaction.checkOn
    split <;> rfl
  · intro t inv e h
    unfold InventoryTransaction.executeOn
    rw [h]

/-- Witness for C2: a replacement on an empty inventory fails its check and
leaves the inventory untouched with no outputs. -/
theorem c2_check_never_mutates_witness :
    InventoryTransaction.executeOn (InventoryTransaction.mkReplace 0 .empty .empty)
      ⟨[]⟩ = (⟨[]⟩, none) :=
  c2_check_never_mutates.2.2 (InventoryTransaction.mkReplace 0 .empty .empty) ⟨[]⟩
    ⟨"Inventory", "slot out of bounds"⟩ rfl

/-- **C9.** `InventoryTransaction::insert` drops all zero-count entries, so a
transaction built only from empty stacks equals the default transaction; and
executing the default transaction succeeds on any inventory, leaves it
unchanged, and emits no output records. -/
theorem c9_insert_drops_empty_default_noop :
    (∀ items : List Slot, (∀ s ∈ items, s.count = 0) →
      InventoryTransaction.mkInsert items = InventoryTransaction.default) ∧
    (∀ inv : Inventory,
      InventoryTransaction.default.executeOn inv = (inv, some [])) := by
  constructor
  · intro items h
    have hf : items.filter (fun s => decide (0 < s.count)) = [] := by
      induction items with
      | nil => rfl
      | cons a l ih =>
        have ha : a.count = 0 := h a (List.mem_cons_self a l)
        rw [List.filter_cons_of_neg, ih]
        · intro s hs; exact h s (List.mem_cons_of_mem a hs)
        · simp [ha]
    unfold InventoryTransaction.mkInsert InventoryTransaction.default
    rw [hf]
  · intro inv
    rfl

/-- Witness for C9: the empty-stacks case at a concrete list. -/
theorem c9_insert_drops_empty_default_noop_witness :
    InventoryTransaction.mkInsert [Slot.empty] = InventoryTransaction.default ∧
    InventoryTransaction.default.executeOn ⟨[Slot.empty]⟩ = (⟨[Slot.empty]⟩, some []) :=
  ⟨c9_insert_drops_empty_default_noop.1 [Slot.empty] (by decide),
    c9_insert_drops_empty_default_noop.2 ⟨[Slot.empty]⟩⟩

/-- **C10.** `Slot::unload_to` conserves the total item count; on stacks of
two different tools it changes nothing and returns `false`; and when combining
two stacks of the same tool it never raises the destination count above the
stack limit of that tool. -/
theorem c10_unload_to_conserves_and_limits :
    ∀ s d : Slot,
      ((s.unload_to d).1.count + (s.unload_to d).2.1.count = s.count + d.count) ∧
      (∀ c1 t1 c2 t2, s = .stack c1 t1 → d = .stack c2 t2 → t1 ≠ t2 →
        s.unload_to d = (s, d, false)) ∧
      (∀ c1 c2 t, s = .stack c1 t → d = .stack c2 t →
        (s.unload_to d).2.1.count ≤ max d.count t.stack_limit.get) := by
  intro s d
  refine ⟨unload_to_conserve s d, ?_, ?_⟩
  · rintro c1 t1 c2 t2 rfl rfl hne
    simp [Slot.unload_to, hne]
  · rintro c1 c2 t rfl rfl
    simp only [Slot.unload_to, if_pos rfl]
    split_ifs with h1 h2 <;> simp only [Slot.count] <;> omega

theorem mem_removeName {t : Storage} {m : Name} {e : Name × URoot} :
    e ∈ removeName t m ↔ e ∈ t ∧ e.1 ≠ m := by
  simp [removeName, List.mem_filter]

theorem mem_foldl_removeName (dead : List Name) (t : Storage) (e : Name × URoot) :
    e ∈ dead.foldl removeName t ↔ e ∈ t ∧ e.1 ∉ dead := by
  induction dead generalizing t with
  | nil => simp
  | cons d rest ih =>
    rw [List.foldl_cons, ih, mem_removeName]
    simp only [List.mem_cons, not_or, and_assoc]

theorem mem_gc_members {t : Storage} (h : storageKeysNodup t) (e : Name × URoot) :
    e ∈ gc_members t ↔ e ∈ t ∧ e.2.weakRefCount ≠ 0 := by
  unfold gc_members
  rw [mem_foldl_removeName]
  constructor
  · rintro ⟨he, hd⟩
    refine ⟨he, fun h0 => hd ?_⟩
    exact List.mem_map.2 ⟨e, List.mem_filter.2 ⟨he, by simp [h0]⟩, rfl⟩
  · rintro ⟨he, hw⟩
    refine ⟨he, fun hd => ?_⟩
    obtain ⟨f, hf, hfe⟩ := List.mem_map.1 hd
    have hf2 := List.mem_filter.1 hf
    have hfeq : f = e := List.inj_on_of_nodup_map h hf2.1 he hfe
    rw [hfeq] at hf2
    exact hw (by simpa using hf2.2)

theorem mem_gc_members_subset {t : Storage} {e : Name × URoot}
    (h : e ∈ gc_members t) : e ∈ t :=
  ((mem_foldl_removeName _ t e).1 h).1

theorem table_addEntry (u : Universe) (ty ty2 : MemberType) (n : Name) (r : URoot) :
    (u.addEntry ty n r).table ty2 =
      if ty2 = ty then u.table ty2 ++ [(n, r)] else u.table ty2 := by
  cases ty <;> cases ty2 <;> simp [Universe.addEntry, Universe.table]

theorem table_setWantsGc (u : Universe) (b : Bool) (ty : MemberType) :
    (({ u with wants_gc := b } : Universe)).table ty = u.table ty := by
  cases ty <;> rfl

theorem table_setNext (u : Universe) (m : Nat) (ty : MemberType) :
    (({ u with next_anonym := m } : Universe)).table ty = u.table ty := by
  cases ty <;> rfl

theorem table_gc (u : Universe) (ty : MemberType) :
    u.gc.table ty = gc_members (u.table ty) := by
  cases ty <;> rfl

theorem next_addEntry (u : Universe) (ty : MemberType) (n : Name) (r : URoot) :
    (u.addEntry ty n r).next_anonym = u.next_anonym := by
  cases ty <;> rfl

theorem mem_delete_table {u : Universe} {n : Name} {ty : MemberType}
    {e : Name × URoot} (h : e ∈ (u.delete n).1.table ty) : e ∈ u.table ty := by
  unfold Universe.delete at h
  split_ifs at h <;> cases ty <;>
    first
      | exact h
      | exact (mem_removeName.1 h).1

theorem containsName_false_of_bounded {u : Universe} (hb : anonsBounded u)
    (ty : MemberType) :
    containsName (u.table ty) (.anonym u.next_anonym) = false := by
  rw [containsName, List.any_eq_false]
  intro e he
  simp only [beq_iff_eq]
  intro h1
  have hmem : (Name.anonym u.next_anonym, e.2) ∈ u.table ty := by
    rw [← h1]
    simpa using he
  exact absurd (hb ty _ _ hmem) (lt_irrefl _)

/-- **C6.** `gc` sweeps every member table, removing exactly the members whose
root handle has a zero weak-reference count; every member with at least one
outstanding reference handle survives and remains present. -/
theorem c6_gc_removes_exactly_unreferenced :
    ∀ u : Universe, (∀ ty, storageKeysNodup (u.table ty)) →
      ∀ (ty : MemberType) (n : Name) (r : URoot),
        ((n, r) ∈ u.gc.table ty ↔ (n, r) ∈ u.table ty ∧ r.weakRefCount ≠ 0) := by
  intro u h ty n r
  rw [table_gc, mem_gc_members (h ty)]

/-- Witness for C6: collecting a universe with one referenced and one
unreferenced member keeps exactly the referenced one. -/
theorem c6_gc_removes_exactly_unreferenced_witness :
    ((Name.specific "a", (⟨1, 1⟩ : URoot)) ∈
      (Universe.gc
        ⟨⟨[(.specific "a", ⟨1, 1⟩), (.anonym 0, ⟨2, 0⟩)], [], []⟩, 1, false⟩).table
        .blocks) ∧
    ¬((Name.anonym 0, (⟨2, 0⟩ : URoot)) ∈
      (Universe.gc
        ⟨⟨[(.specific "a", ⟨1, 1⟩), (.anonym 0, ⟨2, 0⟩)], [], []⟩, 1, false⟩).table
        .blocks) := by
  have hn : ∀ ty, storageKeysNodup
      ((⟨⟨[(.specific "a", ⟨1, 1⟩), (.anonym 0, ⟨2, 0⟩)], [], []⟩, 1,
        false⟩ : Universe).table ty) := by
    intro ty; cases ty <;> simp [Universe.table, storageKeysNodup]
  constructor
  · exact (c6_gc_removes_exactly_unreferenced _ hn .blocks _ _).mpr
      ⟨by decide, by decide⟩
  · intro h
    exact absurd ((c6_gc_removes_exactly_unreferenced _ hn .blocks _ _).mp h).2
      (by decide)

/-- **C7.** Inserting with `Pending` allocates `Anonym next_anonym`, which is
fresh (present in no table), and bumps the counter; the counter is preserved
by `delete` and `gc` and the boundedness invariant is maintained by all of
them, so an anonymous identity is never reused even after deletion. -/
theorem c7_anonym_counter_fresh_monotone :
    ∀ (u : Universe) (ty : MemberType) (v : Nat), anonsBounded u →
      (∃ u2, u.insert ty .pending v = .ok (.anonym u.next_anonym, u2) ∧
        u2.next_anonym = u.next_anonym + 1 ∧ anonsBounded u2) ∧
      u.get_any (.anonym u.next_anonym) = false ∧
      (∀ n : Name, anonsBounded (u.delete n).1 ∧
        (u.delete n).1.next_anonym = u.next_anonym) ∧
      anonsBounded u.gc ∧ u.gc.next_anonym = u.next_anonym := by
  intro u ty v hb
  refine ⟨⟨_, rfl, ?_, ?_⟩, ?_, ?_, ?_, rfl⟩
  · cases ty <;> rfl
  · intro ty2 k r hmem
    rw [table_setWantsGc, table_addEntry] at hmem
    have hnext : ∀ ty3, (({ u with next_anonym := u.next_anonym + 1 } :
        Universe)).table ty3 = u.table ty3 := table_setNext u _
    split_ifs at hmem with hty
    · rcases List.mem_append.1 hmem with hold | hnew
      · rw [hnext] at hold
        have := hb ty2 k r hold
        simp only [next_addEntry]
        omega
      · simp only [List.mem_singleton, Prod.mk.injEq, Name.anonym.injEq] at hnew
        simp only [next_addEntry]
        omega
    · rw [hnext] at hmem
      have := hb ty2 k r hmem
      simp only [next_addEntry]
      omega
  · have h1 := containsName_false_of_bounded hb .blocks
    have h2 := containsName_false_of_bounded hb .characters
    have h3 := containsName_false_of_bounded hb .spaces
    simp only [Universe.table] at h1 h2 h3
    simp [Universe.get_any, h1, h2, h3]
  · intro n
    constructor
    · intro ty2 k r hmem
      have h2 : (u.delete n).1.next_anonym = u.next_anonym := by
        unfold Universe.delete
        split_ifs <;> rfl
      rw [h2]
      exact hb ty2 k r (mem_delete_table hmem)
    · unfold Universe.delete
      split_ifs <;> rfl
  · intro ty2 k r hmem
    rw [table_gc] at hmem
    exact hb ty2 k r (mem_gc_members_subset hmem)

/-- Witness for C7: the fresh universe (trivially satisfying the counter
invariant) allocates `Anonym 0` for a pending insert. -/
theorem c7_anonym_counter_fresh_monotone_witness :
    (∃ u2, Universe.new.insert .blocks .pending 7 =
        .ok (.anonym Universe.new.next_anonym, u2) ∧
      u2.next_anonym = Universe.new.next_anonym + 1 ∧ anonsBounded u2) ∧
    Universe.new.get_any (.anonym Universe.new.next_anonym) = false := by
  have hb : anonsBounded Universe.new := by
    intro ty k r h
    cases ty <;> exact absurd h (List.not_mem_nil _)
  exact ⟨(c7_anonym_counter_fresh_monotone Universe.new .blocks 7 hb).1,
    (c7_anonym_counter_fresh_monotone Universe.new .blocks 7 hb).2.1⟩

/-- **C4.** `insert` semantics: a `Specific` name already used by any member
type fails with `AlreadyExists`; an `Anonym` name fails with `InvalidName`; a
`Pending` name succeeds, allocating the fresh anonym; on success the root
handle (with one outstanding reference) is stored in the table and the derived
reference handle (identified by the allocated name) is returned. -/
theorem c4_insert_name_semantics :
    ∀ (u : Universe) (ty : MemberType) (v : Nat),
      (∀ s, u.get_any (.specific s) = true →
        u.insert ty (.specific s) v = .error ⟨.specific s, .alreadyExists⟩) ∧
      (∀ k, u.insert ty (.anonym k) v = .error ⟨.anonym k, .invalidName⟩) ∧
      (∃ u2, u.insert ty .pending v = .ok (.anonym u.next_anonym, u2) ∧
        (Name.anonym u.next_anonym, (⟨v, 1⟩ : URoot)) ∈ u2.table ty) ∧
      (∀ s, u.get_any (.specific s) = false →
        ∃ u2, u.insert ty (.specific s) v = .ok (.specific s, u2) ∧
          (Name.specific s, (⟨v, 1⟩ : URoot)) ∈ u2.table ty) := by
  intro u ty v
  refine ⟨?_, ?_, ?_, ?_⟩
  · intro s hs
    simp [Universe.insert, Universe.allocate_name, hs]
  · intro k
    rfl
  · refine ⟨_, rfl, ?_⟩
    rw [table_setWantsGc, table_addEntry, if_pos rfl]
    exact List.mem_append.2 (Or.inr (List.mem_singleton.2 rfl))
  · intro s hs
    have halloc : u.allocate_name (.specific s) = .ok (.specific s, u) := by
      simp [Universe.allocate_name, hs]
    unfold Universe.insert
    rw [halloc]
    refine ⟨_, rfl, ?_⟩
    rw [table_setWantsGc, table_addEntry, if_pos rfl]
    exact List.mem_append.2 (Or.inr (List.mem_singleton.2 rfl))

/-- Witness for C4: concrete insertions into a universe already holding the
specific name "a". -/
theorem c4_insert_name_semantics_witness :
    (Universe.insert ⟨⟨[(.specific "a", ⟨1, 1⟩)], [], []⟩, 0, false⟩ .spaces
        (.specific "a") 9 = .error ⟨.specific "a", .alreadyExists⟩) ∧
    (Universe.insert ⟨⟨[(.specific "a", ⟨1, 1⟩)], [], []⟩, 0, false⟩ .spaces
        (.anonym 3) 9 = .error ⟨.anonym 3, .invalidName⟩) ∧
    (∃ u2, Universe.insert ⟨⟨[(.specific "a", ⟨1, 1⟩)], [], []⟩, 0, false⟩ .spaces
        (.specific "b") 9 = .ok (.specific "b", u2) ∧
      (Name.specific "b", (⟨9, 1⟩ : URoot)) ∈ u2.table .spaces) :=
  ⟨(c4_insert_name_semantics ⟨⟨[(.specific "a", ⟨1, 1⟩)], [], []⟩, 0, false⟩
      .spaces 9).1 "a" (by decide),
    (c4_insert_name_semantics ⟨⟨[(.specific "a", ⟨1, 1⟩)], [], []⟩, 0, false⟩
      .spaces 9).2.1 3,
    (c4_insert_name_semantics ⟨⟨[(.specific "a", ⟨1, 1⟩)], [], []⟩, 0, false⟩
      .spaces 9).2.2.2 "b" (by decide)⟩

/-- **C8.** GC is deferred: every successful insertion sets the wants-GC flag
and removes nothing; `step` is the member-stepping body applied after the GC
prologue, which clears the flag and runs `gc` exactly when the flag was set;
and `delete` removes only the named entry, never sweeping. -/
theorem c8_gc_deferred_to_step :
    (∀ (u : Universe) (ty : MemberType) (n nm : Name) (v : Nat) (u2 : Universe),
      u.insert ty n v = .ok (nm, u2) →
        u2.wants_gc = true ∧ ∀ ty2 e, e ∈ u.table ty2 → e ∈ u2.table ty2) ∧
    (∀ (f : Universe → Universe) (u : Universe), u.step f = f u.gcPhase) ∧
    (∀ u : Universe, u.gcPhase.wants_gc = false ∧
      (u.wants_gc = true → u.gcPhase.tables = u.gc.tables) ∧
      (u.wants_gc = false → u.gcPhase = u)) ∧
    (∀ (u : Universe) (n : Name) (ty : MemberType) (e : Name × URoot),
      e.1 ≠ n → ((e ∈ (u.delete n).1.table ty) ↔ e ∈ u.table ty)) := by
  refine ⟨?_, fun _ _ => rfl, ?_, ?_⟩
  · intro u ty n nm v u2 h
    unfold Universe.insert at h
    cases halloc : u.allocate_name n with
    | error e => rw [halloc] at h; exact Except.noConfusion h
    | ok p =>
      rw [halloc] at h
      injection h with h2
      injection h2 with hnm hu2
      constructor
      · rw [← hu2]
      · intro ty2 e he
        rw [← hu2, table_setWantsGc, table_addEntry]
        have hp : p.2.table ty2 = u.table ty2 := by
          cases n with
          | specific s =>
            simp only [Universe.allocate_name] at halloc
            by_cases hg : u.get_any (.specific s) = true
            · rw [if_pos hg] at halloc; exact Except.noConfusion halloc
            · rw [if_neg hg] at halloc
              injection halloc with hq
              rw [← hq]
          | anonym k =>
            simp only [Universe.allocate_name] at halloc
            exact Except.noConfusion halloc
          | pending =>
            simp only [Universe.allocate_name] at halloc
            injection halloc with hq
            rw [← hq]
            exact table_setNext u _ ty2
        split_ifs with hty
        · exact List.mem_append.2 (Or.inl (hp ▸ he))
        · exact hp ▸ he
  · intro u
    unfold Universe.gcPhase
    by_cases h : u.wants_gc
    · rw [if_pos h]
      exact ⟨rfl, fun _ => rfl, fun hf => absurd h (by simp [hf])⟩
    · rw [if_neg h]
      refine ⟨by simpa using h, fun hf => absurd hf h, fun _ => rfl⟩
  · intro u n ty e hne
    constructor
    · exact mem_delete_table
    · intro he
      unfold Universe.delete
      split_ifs <;> cases ty <;>
        first
          | exact he
          | exact mem_removeName.2 ⟨he, hne⟩

/-- Witness for C8: a concrete insertion over a universe holding a dead
member sets the flag and keeps that member; a flagged universe has its tables
swept by the step prologue. -/
theorem c8_gc_deferred_to_step_witness :
    ((⟨⟨[(.anonym 0, ⟨2, 0⟩), (.specific "x", ⟨5, 1⟩)], [], []⟩, 1,
        true⟩ : Universe).wants_gc = true ∧
      ∀ ty2 e,
        e ∈ (⟨⟨[(.anonym 0, ⟨2, 0⟩)], [], []⟩, 1, false⟩ : Universe).table ty2 →
        e ∈ (⟨⟨[(.anonym 0, ⟨2, 0⟩), (.specific "x", ⟨5, 1⟩)], [], []⟩, 1,
          true⟩ : Universe).table ty2) ∧
    ((⟨⟨[(.anonym 0, ⟨2, 0⟩)], [], []⟩, 1, true⟩ : Universe).gcPhase.tables =
      (⟨⟨[(.anonym 0, ⟨2, 0⟩)], [], []⟩, 1, true⟩ : Universe).gc.tables) :=
  ⟨c8_gc_deferred_to_step.1 ⟨⟨[(.anonym 0, ⟨2, 0⟩)], [], []⟩, 1, false⟩ .blocks
      (.specific "x") (.specific "x") 5
      ⟨⟨[(.anonym 0, ⟨2, 0⟩), (.specific "x", ⟨5, 1⟩)], [], []⟩, 1, true⟩ rfl,
    (c8_gc_deferred_to_step.2.2.1
      ⟨⟨[(.anonym 0, ⟨2, 0⟩)], [], []⟩, 1, true⟩).2.1 rfl⟩

theorem getElem?_foldSetR_notMem {l : List (Nat × Slot × Slot)} {i : Nat}
    {slots : List Slot} (hi : i ∉ keysOfR l) :
    (foldSetR l slots)[i]? = slots[i]? := by
  induction l generalizing slots with
  | nil => rfl
  | cons e rest ih =>
    have hi2 : i ∉ keysOfR rest := fun h => hi (List.mem_cons_of_mem _ h)
    have hi1 : e.1 ≠ i := fun h => hi (h ▸ List.mem_cons_self _ _)
    have hstep : foldSetR (e :: rest) slots = foldSetR rest (slots.set e.1 e.2.2) := rfl
    rw [hstep, ih hi2, List.getElem?_set_ne hi1]

theorem replacePreB_foldSetR_disjoint {l1 l2 : List (Nat × Slot × Slot)}
    {slots : List Slot} (hd : ∀ k ∈ keysOfR l2, k ∉ keysOfR l1) :
    replacePreB l2 (foldSetR l1 slots) = replacePreB l2 slots := by
  refine all_congr_of_eq fun e he => ?_
  rw [getElem?_foldSetR_notMem (hd e.1 (List.mem_map.2 ⟨e, he, rfl⟩))]

theorem foldSetR_set_comm {l : List (Nat × Slot × Slot)} {j : Nat} {b : Slot}
    {slots : List Slot} (hj : j ∉ keysOfR l) :
    foldSetR l (slots.set j b) = (foldSetR l slots).set j b := by
  induction l generalizing slots with
  | nil => rfl
  | cons e rest ih =>
    have hj2 : j ∉ keysOfR rest := fun h => hj (List.mem_cons_of_mem _ h)
    have hj1 : j ≠ e.1 := fun h => hj (h ▸ List.mem_cons_self _ _)
    have hstep : ∀ sl : List Slot, foldSetR (e :: rest) sl = foldSetR rest (sl.set e.1 e.2.2) :=
      fun _ => rfl
    rw [hstep, hstep, List.set_comm _ _ _ hj1, ih hj2]

theorem foldSetR_comm {l1 l2 : List (Nat × Slot × Slot)} {slots : List Slot}
    (hd : ∀ k ∈ keysOfR l1, k ∉ keysOfR l2) :
    foldSetR l1 (foldSetR l2 slots) = foldSetR l2 (foldSetR l1 slots) := by
  induction l1 generalizing slots with
  | nil => rfl
  | cons e r1 ih =>
    have hd2 : ∀ k ∈ keysOfR r1, k ∉ keysOfR l2 :=
      fun k hk => hd k (List.mem_cons_of_mem _ hk)
    have he : e.1 ∉ keysOfR l2 := hd e.1 (List.mem_cons_self _ _)
    have hstep : ∀ sl : List Slot, foldSetR (e :: r1) sl = foldSetR r1 (sl.set e.1 e.2.2) :=
      fun _ => rfl
    rw [hstep, hstep, ← foldSetR_set_comm he, ih hd2]

theorem executeState_insert_nil (t : InventoryTransaction) (ht : t.insert = [])
    (inv : Inventory) :
    t.executeState inv =
      (stateOf (applyReplaces t.replace inv.slots [])).map
        (fun s => (⟨s⟩ : Inventory)) := by
  by_cases hemp : (t.replace.isEmpty && t.insert.isEmpty) = true
  · have hck : t.check inv = .ok none := by
      unfold InventoryTransaction.check
      rw [if_pos hemp]
    rw [Bool.and_eq_true] at hemp
    have hrep : t.replace = [] := List.isEmpty_iff.1 hemp.1
    unfold InventoryTransaction.executeState
    rw [hck, hrep]
    rfl
  · have hck : t.check inv =
        match applyReplaces t.replace inv.slots [] with
        | .error e => .error e
        | .ok (slots2, changed) =>
          match applyInserts t.insert slots2 changed with
          | .error e => .error e
          | .ok (slots3, changed3) => .ok (some ⟨slots3, ⟨changed3⟩⟩) := by
      unfold InventoryTransaction.check
      rw [if_neg hemp]
    rw [ht] at hck
    simp only [applyInserts] at hck
    unfold InventoryTransaction.executeState
    cases har : applyReplaces t.replace inv.slots [] with
    | error e => rw [hck, har]; rfl
    | ok p =>
      obtain ⟨s2, c2⟩ := p
      rw [hck, har]
      rfl

theorem foldl_insertR_append {l2 : List (Nat × Slot × Slot)} :
    ∀ {l1 : List (Nat × Slot × Slot)}, (keysOfR l2).Nodup →
      (∀ k ∈ keysOfR l2, k ∉ keysOfR l1) → l2.foldl insertR l1 = l1 ++ l2 := by
  induction l2 with
  | nil => intro l1 _ _; simp
  | cons e rest ih =>
    intro l1 h2 hd
    have he1 : e.1 ∉ keysOfR l1 := hd e.1 (List.mem_cons_self _ _)
    have hins : insertR l1 e = l1 ++ [e] := by
      unfold insertR
      rw [if_neg]
      simp only [List.any_eq_true, beq_iff_eq, not_exists]
      push_neg
      intro f hf hfe
      exact he1 (hfe ▸ List.mem_map.2 ⟨f, hf, rfl⟩)
    have hkeys : keysOfR ((e :: rest) : List (Nat × Slot × Slot)) =
        e.1 :: keysOfR rest := rfl
    rw [hkeys, List.nodup_cons] at h2
    rw [List.foldl_cons, hins, ih h2.2 ?_]
    · rw [List.append_assoc]
      rfl
    · intro k hk
      have hk1 : k ∉ keysOfR l1 := hd k (List.mem_cons_of_mem _ hk)
      have hke : k ≠ e.1 := fun h => h2.1 (h ▸ hk)
      simp only [keysOfR, List.map_append, List.mem_append, List.map_cons,
        List.map_nil, List.mem_singleton]
      rintro (h | h)
      · exact hk1 h
      · exact hke h

theorem mapset_cons {B : Type} (c : Cube) (b : B) (e : Cube × B)
    (rest : List (Cube × B)) :
    mapset c b (e :: rest) = (if e.1 = c then (c, b) else e) :: mapset c b rest := rfl

theorem lookupA_cons {V : Type} (c : Cube) (e : Cube × V) (rest : List (Cube × V)) :
    lookupA c (e :: rest) = if e.1 = c then some e.2 else lookupA c rest := rfl

theorem lookupA_mapset_ne {B : Type} {c c2 : Cube} {b : B} {l : List (Cube × B)}
    (h : c2 ≠ c) : lookupA c2 (mapset c b l) = lookupA c2 l := by
  induction l with
  | nil => rfl
  | cons e rest ih =>
    rw [mapset_cons, lookupA_cons, lookupA_cons]
    by_cases he : e.1 = c
    · rw [if_pos he]
      have hc2 : ¬((c, b).1 = c2) := fun hh => h (Eq.symm hh)
      rw [if_neg hc2, if_neg (fun hh => h (by rw [← hh, he]) : ¬(e.1 = c2)), ih]
    · rw [if_neg he]
      by_cases he2 : e.1 = c2
      · rw [if_pos he2, if_pos he2]
      · rw [if_neg he2, if_neg he2, ih]

theorem lookupA_mapset_eq {B : Type} {c : Cube} {b : B} {l : List (Cube × B)} :
    lookupA c (mapset c b l) = (lookupA c l).map (fun _ => b) := by
  induction l with
  | nil => rfl
  | cons e rest ih =>
    rw [mapset_cons, lookupA_cons, lookupA_cons]
    by_cases he : e.1 = c
    · rw [if_pos he, if_pos he]
      have hcc : ((c, b) : Cube × B).1 = c := rfl
      rw [if_pos hcc]
      rfl
    · rw [if_neg he, if_neg he, if_neg he, ih]

theorem lookupA_isSome_mapset {B : Type} (c c2 : Cube) (b : B) (l : List (Cube × B)) :
    (lookupA c2 (mapset c b l)).isSome = (lookupA c2 l).isSome := by
  by_cases h : c2 = c
  · subst h
    rw [lookupA_mapset_eq]
    cases lookupA c2 l <;> rfl
  · rw [lookupA_mapset_ne h]

theorem lookupA_eq_none_of_notMem {V : Type} {c : Cube} {l : List (Cube × V)}
    (h : c ∉ l.map (fun e => e.1)) : lookupA c l = none := by
  induction l with
  | nil => rfl
  | cons e rest ih =>
    have h1 : ¬(e.1 = c) := fun hh => h (by rw [List.map_cons, hh]; exact List.mem_cons_self _ _)
    have h2 : c ∉ rest.map (fun e => e.1) := fun hh => h (by rw [List.map_cons]; exact List.mem_cons_of_mem _ hh)
    simp only [lookupA, if_neg h1]
    exact ih h2

theorem checkOkB_isSome {B : Type} [DecidableEq B]
    {l : List (Cube × CubeTransaction B)} {s : Space B}
    (hb : checkOkB l s = true) : ∀ e ∈ l, (s.get e.1).isSome = true := by
  intro e he
  have hp := List.all_eq_true.1 hb e he
  cases hg : s.get e.1 with
  | some v => rfl
  | none => rw [hg] at hp; cases e.2.old <;> simp at hp

theorem checkCubes_eq_ok_iff {B : Type} [DecidableEq B]
    (l : List (Cube × CubeTransaction B)) (s : Space B) :
    checkCubes l s = .ok () ↔ checkOkB l s = true := by
  induction l with
  | nil => simp [checkCubes, checkOkB]
  | cons e rest ih =>
    obtain ⟨c, ct⟩ := e
    simp only [checkCubes, checkOkB, List.all_cons, Bool.and_eq_true]
    cases hg : s.get c with
    | none =>
      simp only [hg]
      cases ct.old <;>
        exact ⟨fun h => Except.noConfusion h, fun h => absurd h.1 (by simp)⟩
    | some cur =>
      cases ho : ct.old with
      | none =>
        simp only [hg]
        rw [show checkOkB rest s = (rest.all fun e =>
          match s.get e.1, e.2.old with
          | some cur, some o => cur == o
          | some _, none => true
          | none, _ => false) from rfl] at ih
        exact ⟨fun h => ⟨trivial, ih.1 h⟩, fun h => ih.2 h.2⟩
      | some o =>
        simp only [hg]
        by_cases hco : cur = o
        · rw [if_pos hco]
          exact ⟨fun h => ⟨by simp [hco], ih.1 h⟩, fun h => ih.2 h.2⟩
        · rw [if_neg hco]
          exact ⟨fun h => Except.noConfusion h,
            fun h => absurd h.1 (by simp [hco])⟩

theorem applyAllC_cons {B : Type} (e : Cube × CubeTransaction B)
    (rest : List (Cube × CubeTransaction B)) (s : Space B) :
    applyAllC (e :: rest) s =
      applyAllC rest
        (match e.2.new with
          | some b => ⟨mapset e.1 b s.entries⟩
          | none => s) := rfl

theorem commitCubes_eq_applyAllC {B : Type} [DecidableEq B]
    (l : List (Cube × CubeTransaction B)) (s : Space B)
    (h : ∀ e ∈ l, (s.get e.1).isSome = true) :
    commitCubes l s = some (applyAllC l s) := by
  induction l generalizing s with
  | nil => rfl
  | cons e rest ih =>
    obtain ⟨c, ct⟩ := e
    have hhead := h (c, ct) (List.mem_cons_self _ _)
    have htail := fun e2 he2 => h e2 (List.mem_cons_of_mem _ he2)
    cases hn : ct.new with
    | none =>
      rw [applyAllC_cons]
      simp only [commitCubes, hn]
      exact ih s htail
    | some b =>
      have hset : s.set c b = some ⟨mapset c b s.entries⟩ := by
        unfold Space.set
        rw [if_pos hhead]
      rw [applyAllC_cons]
      simp only [commitCubes, hn, hset]
      refine ih _ (fun e2 he2 => ?_)
      show (lookupA e2.1 (mapset c b s.entries)).isSome = true
      rw [lookupA_isSome_mapset]
      exact htail e2 he2

theorem space_executeState_eq {B : Type} [DecidableEq B]
    (t : SpaceTransaction B) (s : Space B) :
    t.executeState s =
      if checkOkB t.cubes s then some (applyAllC t.cubes s) else none := by
  unfold SpaceTransaction.executeState SpaceTransaction.check
  cases hc : checkCubes t.cubes s with
  | ok u =>
    have hb : checkOkB t.cubes s = true := (checkCubes_eq_ok_iff _ _).1 hc
    rw [if_pos hb]
    unfold SpaceTransaction.commit
    exact commitCubes_eq_applyAllC _ _ (checkOkB_isSome hb)
  | error e =>
    have hb : ¬(checkOkB t.cubes s = true) := fun hcb => by
      rw [(checkCubes_eq_ok_iff _ _).2 hcb] at hc
      exact Except.noConfusion hc
    rw [if_neg hb]

theorem get_applyAllC_notMem {B : Type} {l : List (Cube × CubeTransaction B)}
    {c : Cube} (h : c ∉ keysT l) :
    ∀ s : Space B, (applyAllC l s).get c = s.get c := by
  induction l with
  | nil => intro s; rfl
  | cons e rest ih =>
    intro s
    have h2 : c ∉ keysT rest := fun hh => h (List.mem_cons_of_mem _ hh)
    have h1 : e.1 ≠ c := fun hh => h (hh ▸ List.mem_cons_self _ _)
    rw [applyAllC_cons]
    cases hn : e.2.new with
    | none => exact ih h2 s
    | some b =>
      rw [ih h2]
      show lookupA c (mapset e.1 b s.entries) = s.get c
      rw [lookupA_mapset_ne (fun hh => h1 hh.symm)]
      rfl

theorem checkOkB_applyAllC_disjoint {B : Type} [DecidableEq B]
    {l1 l2 : List (Cube × CubeTransaction B)} {s : Space B}
    (hd : ∀ c ∈ keysT l2, c ∉ keysT l1) :
    checkOkB l2 (applyAllC l1 s) = checkOkB l2 s := by
  refine all_congr_of_eq fun e he => ?_
  rw [get_applyAllC_notMem (hd e.1 (List.mem_map.2 ⟨e, he, rfl⟩))]

theorem mapset_comm {B : Type} {c1 c2 : Cube} {b1 b2 : B} {l : List (Cube × B)}
    (h : c1 ≠ c2) :
    mapset c1 b1 (mapset c2 b2 l) = mapset c2 b2 (mapset c1 b1 l) := by
  induction l with
  | nil => rfl
  | cons e rest ih =>
    rw [mapset_cons c2 b2 e rest, mapset_cons c1 b1, mapset_cons c1 b1 e rest,
      mapset_cons c2 b2]
    have hhead : (if (if e.1 = c2 then ((c2, b2) : Cube × B) else e).1 = c1
          then ((c1, b1) : Cube × B)
          else if e.1 = c2 then (c2, b2) else e) =
        (if (if e.1 = c1 then ((c1, b1) : Cube × B) else e).1 = c2
          then ((c2, b2) : Cube × B)
          else if e.1 = c1 then (c1, b1) else e) := by
      by_cases h2 : e.1 = c2 <;> by_cases h1 : e.1 = c1
      · exact absurd (by rw [← h1, h2]) h
      · rw [if_pos h2, if_neg h1,
          if_neg (fun hh => h (Eq.symm hh) : ¬(((c2, b2) : Cube × B).1 = c1)),
          if_pos h2]
      · rw [if_neg h2, if_pos h1,
          if_neg (fun hh => h hh : ¬(((c1, b1) : Cube × B).1 = c2))]
      · rw [if_neg h2, if_neg h1, if_neg h2]
    rw [hhead, ih]

theorem applyAllC_set_comm {B : Type} {l : List (Cube × CubeTransaction B)}
    {c : Cube} {b : B} (h : c ∉ keysT l) :
    ∀ s : Space B, applyAllC l ⟨mapset c b s.entries⟩ =
      ⟨mapset c b (applyAllC l s).entries⟩ := by
  induction l with
  | nil => intro s; rfl
  | cons e rest ih =>
    intro s
    have h2 : c ∉ keysT rest := fun hh => h (List.mem_cons_of_mem _ hh)
    have h1 : e.1 ≠ c := fun hh => h (hh ▸ List.mem_cons_self _ _)
    rw [applyAllC_cons, applyAllC_cons]
    cases hn : e.2.new with
    | none => exact ih h2 s
    | some b2 =>
      show applyAllC rest ⟨mapset e.1 b2 (mapset c b s.entries)⟩ = _
      rw [mapset_comm h1]
      exact ih h2 ⟨mapset e.1 b2 s.entries⟩

theorem applyAllC_comm {B : Type} {l1 l2 : List (Cube × CubeTransaction B)}
    (hd : ∀ c ∈ keysT l1, c ∉ keysT l2) :
    ∀ s : Space B, applyAllC l1 (applyAllC l2 s) = applyAllC l2 (applyAllC l1 s) := by
  induction l1 with
  | nil => intro s; rfl
  | cons e r1 ih =>
    intro s
    have hd2 : ∀ c ∈ keysT r1, c ∉ keysT l2 :=
      fun c hc => hd c (List.mem_cons_of_mem _ hc)
    have he : e.1 ∉ keysT l2 := hd e.1 (List.mem_cons_self _ _)
    rw [applyAllC_cons, applyAllC_cons]
    cases hn : e.2.new with
    | none => exact ih hd2 s
    | some b =>
      show applyAllC r1 ⟨mapset e.1 b (applyAllC l2 s).entries⟩ = _
      rw [← applyAllC_set_comm he, ih hd2]

theorem foldl_insertCube_append {B : Type}
    {l2 : List (Cube × CubeTransaction B)} :
    ∀ {l1 : List (Cube × CubeTransaction B)}, (keysT l2).Nodup →
      (∀ c ∈ keysT l2, c ∉ keysT l1) → l2.foldl insertCube l1 = l1 ++ l2 := by
  induction l2 with
  | nil => intro l1 _ _; simp
  | cons e rest ih =>
    intro l1 h2 hd
    have he1 : e.1 ∉ keysT l1 := hd e.1 (List.mem_cons_self _ _)
    have hins : insertCube l1 e = l1 ++ [e] := by
      unfold insertCube
      rw [lookupA_eq_none_of_notMem he1]
      rfl
    have hkeys : keysT ((e :: rest) : List (Cube × CubeTransaction B)) =
        e.1 :: keysT rest := rfl
    rw [hkeys, List.nodup_cons] at h2
    rw [List.foldl_cons, hins, ih h2.2 ?_]
    · rw [List.append_assoc]
      rfl
    · intro c hc
      have hc1 : c ∉ keysT l1 := hd c (List.mem_cons_of_mem _ hc)
      have hce : c ≠ e.1 := fun hh => h2.1 (hh ▸ hc)
      simp only [keysT, List.map_append, List.mem_append, List.map_cons,
        List.map_nil, List.mem_singleton]
      rintro (hh | hh)
      · exact hc1 hh
      · exact hce hh

theorem checkMergeCubes_ok_of_disjoint {B : Type} [DecidableEq B]
    {l1 l2 : List (Cube × CubeTransaction B)}
    (hd : ∀ e ∈ l1, lookupA e.1 l2 = (none : Option (CubeTransaction B))) :
    checkMergeCubes l1 l2 = .ok () := by
  induction l1 with
  | nil => rfl
  | cons e rest ih =>
    simp only [checkMergeCubes, hd e (List.mem_cons_self _ _)]
    exact ih (fun e2 he2 => hd e2 (List.mem_cons_of_mem _ he2))

theorem check_merge_ok_of_disjointR {t1 t2 : InventoryTransaction}
    (hd : ∀ k ∈ keysOfR t1.replace, k ∉ keysOfR t2.replace) :
    t1.check_merge t2 = .ok () := by
  unfold InventoryTransaction.check_merge
  rw [if_neg]
  simp only [List.any_eq_true, beq_iff_eq, not_exists]
  push_neg
  intro e he f hf
  intro hfe
  exact hd e.1 (List.mem_map.2 ⟨e, he, rfl⟩) (hfe ▸ List.mem_map.2 ⟨f, hf, rfl⟩)

theorem inv_executeState_closed (t : InventoryTransaction) (ht : t.insert = [])
    (hnd : (keysOfR t.replace).Nodup) (iv : Inventory) :
    t.executeState iv =
      if replacePreB t.replace iv.slots
        then some ⟨foldSetR t.replace iv.slots⟩ else none := by
  rw [executeState_insert_nil t ht, stateOf_applyReplaces _ _ _ hnd]
  by_cases hq : replacePreB t.replace iv.slots = true
  · rw [if_pos hq, if_pos hq]
    rfl
  · rw [if_neg hq, if_neg hq]
    rfl

/-- **C3 (amended).** For keyed-slot transactions with disjoint explicit key
sets, `check_merge` always succeeds; and for replace-only transactions (cube
maps are always such; inventory transactions when neither side has an
insertion list), executing the merged transaction succeeds exactly when the
sequential executions do, in either order, with the same final state. (With
insertion lists the equivalence fails; see the counterexample.) -/
theorem c3_disjoint_merge_equivalence :
    (∀ (B : Type) [DecidableEq B] (t1 t2 : SpaceTransaction B),
      (∀ c ∈ keysT t1.cubes, c ∉ keysT t2.cubes) →
      t1.check_merge t2 = .ok () ∧
      ((keysT t2.cubes).Nodup → ∀ s : Space B,
        (t1.commit_merge t2).executeState s = seqSpace t1 t2 s ∧
        seqSpace t1 t2 s = seqSpace t2 t1 s)) ∧
    (∀ t1 t2 : InventoryTransaction,
      (∀ k ∈ keysOfR t1.replace, k ∉ keysOfR t2.replace) →
      t1.check_merge t2 = .ok () ∧
      ((keysOfR t1.replace).Nodup → (keysOfR t2.replace).Nodup →
        t1.insert = [] → t2.insert = [] → ∀ inv : Inventory,
        (t1.commit_merge t2).executeState inv = seqInv t1 t2 inv ∧
        seqInv t1 t2 inv = seqInv t2 t1 inv)) := by
  constructor
  · intro B instB t1 t2 hd
    constructor
    · unfold SpaceTransaction.check_merge
      exact checkMergeCubes_ok_of_disjoint (fun e he =>
        lookupA_eq_none_of_notMem (hd e.1 (List.mem_map.2 ⟨e, he, rfl⟩)))
    · intro hnd2 s
      have hdflip : ∀ c ∈ keysT t2.cubes, c ∉ keysT t1.cubes :=
        fun c hc hc1 => hd c hc1 hc
      have hmr : (t1.commit_merge t2).cubes = t1.cubes ++ t2.cubes := by
        unfold SpaceTransaction.commit_merge
        exact foldl_insertCube_append hnd2 hdflip
      have em := space_executeState_eq (t1.commit_merge t2) s
      rw [hmr] at em
      have happ : checkOkB (t1.cubes ++ t2.cubes) s =
          (checkOkB t1.cubes s && checkOkB t2.cubes s) := List.all_append
      have hfold : applyAllC (t1.cubes ++ t2.cubes) s =
          applyAllC t2.cubes (applyAllC t1.cubes s) := by
        unfold applyAllC
        exact List.foldl_append _ _ _ _
      have hstab2 : checkOkB t2.cubes (applyAllC t1.cubes s) =
          checkOkB t2.cubes s := checkOkB_applyAllC_disjoint hdflip
      have hstab1 : checkOkB t1.cubes (applyAllC t2.cubes s) =
          checkOkB t1.cubes s := checkOkB_applyAllC_disjoint hd
      have hcomm : applyAllC t2.cubes (applyAllC t1.cubes s) =
          applyAllC t1.cubes (applyAllC t2.cubes s) := (applyAllC_comm hd s).symm
      constructor
      · cases hp1 : checkOkB t1.cubes s <;> cases hp2 : checkOkB t2.cubes s <;>
          simp [em, seqSpace, space_executeState_eq, happ, hfold, hstab1, hstab2,
            hp1, hp2]
      · cases hp1 : checkOkB t1.cubes s <;> cases hp2 : checkOkB t2.cubes s <;>
          simp [seqSpace, space_executeState_eq, hstab1, hstab2, hp1, hp2, hcomm]
  · intro t1 t2 hd
    constructor
    · exact check_merge_ok_of_disjointR hd
    · intro hnd1 hnd2 h1 h2 inv
      have hdflip : ∀ k ∈ keysOfR t2.replace, k ∉ keysOfR t1.replace :=
        fun k hk hk1 => hd k hk1 hk
      have hmr : (t1.commit_merge t2).replace = t1.replace ++ t2.replace := by
        unfold InventoryTransaction.commit_merge
        exact foldl_insertR_append hnd2 hdflip
      have hmi : (t1.commit_merge t2).insert = [] := by
        unfold InventoryTransaction.commit_merge
        simp [h1, h2]
      have hndm : (keysOfR ((t1.commit_merge t2).replace)).Nodup := by
        rw [hmr]
        rw [show keysOfR (t1.replace ++ t2.replace) =
          keysOfR t1.replace ++ keysOfR t2.replace from by simp [keysOfR]]
        exact List.nodup_append.2 ⟨hnd1, hnd2, hd⟩
      have em := inv_executeState_closed (t1.commit_merge t2) hmi hndm inv
      rw [hmr] at em
      have happ : replacePreB (t1.replace ++ t2.replace) inv.slots =
          (replacePreB t1.replace inv.slots && replacePreB t2.replace inv.slots) :=
        List.all_append
      have hfold : foldSetR (t1.replace ++ t2.replace) inv.slots =
          foldSetR t2.replace (foldSetR t1.replace inv.slots) := by
        unfold foldSetR
        exact List.foldl_append _ _ _ _
      have hstab2 : replacePreB t2.replace (foldSetR t1.replace inv.slots) =
          replacePreB t2.replace inv.slots := replacePreB_foldSetR_disjoint hdflip
      have hstab1 : replacePreB t1.replace (foldSetR t2.replace inv.slots) =
          replacePreB t1.replace inv.slots := replacePreB_foldSetR_disjoint hd
      have hcomm : foldSetR t2.replace (foldSetR t1.replace inv.slots) =
          foldSetR t1.replace (foldSetR t2.replace inv.slots) :=
        (foldSetR_comm hd).symm
      constructor
      · cases hp1 : replacePreB t1.replace inv.slots <;>
          cases hp2 : replacePreB t2.replace inv.slots <;>
          simp [em, seqInv, inv_executeState_closed t1 h1 hnd1,
            inv_executeState_closed t2 h2 hnd2, happ, hfold, hstab1, hstab2,
            hp1, hp2]
      · cases hp1 : replacePreB t1.replace inv.slots <;>
          cases hp2 : replacePreB t2.replace inv.slots <;>
          simp [seqInv, inv_executeState_closed t1 h1 hnd1,
            inv_executeState_closed t2 h2 hnd2, hstab1, hstab2, hp1, hp2, hcomm]

/-- Witness for C3: two replace-only inventory transactions on slots 0 and 1. -/
theorem c3_disjoint_merge_equivalence_witness :
    (InventoryTransaction.mkReplace 0 .empty (.stack 5 ⟨0, .standard⟩)).check_merge
        (InventoryTransaction.mkReplace 1 .empty (.stack 5 ⟨1, .standard⟩)) = .ok () ∧
    ((InventoryTransaction.mkReplace 0 .empty
          (.stack 5 ⟨0, .standard⟩)).commit_merge
        (InventoryTransaction.mkReplace 1 .empty
          (.stack 5 ⟨1, .standard⟩))).executeState ⟨[.empty, .empty]⟩ =
      seqInv (InventoryTransaction.mkReplace 0 .empty (.stack 5 ⟨0, .standard⟩))
        (InventoryTransaction.mkReplace 1 .empty (.stack 5 ⟨1, .standard⟩))
        ⟨[.empty, .empty]⟩ ∧
    seqInv (InventoryTransaction.mkReplace 0 .empty (.stack 5 ⟨0, .standard⟩))
        (InventoryTransaction.mkReplace 1 .empty (.stack 5 ⟨1, .standard⟩))
        ⟨[.empty, .empty]⟩ =
      seqInv (InventoryTransaction.mkReplace 1 .empty (.stack 5 ⟨1, .standard⟩))
        (InventoryTransaction.mkReplace 0 .empty (.stack 5 ⟨0, .standard⟩))
        ⟨[.empty, .empty]⟩ := by
  have h := c3_disjoint_merge_equivalence.2
    (InventoryTransaction.mkReplace 0 .empty (.stack 5 ⟨0, .standard⟩))
    (InventoryTransaction.mkReplace 1 .empty (.stack 5 ⟨1, .standard⟩))
    (by decide)
  have h2 := h.2 (by decide) (by decide) rfl rfl ⟨[.empty, .empty]⟩
  exact ⟨h.1, h2.1, h2.2⟩

/-- Counterexample for C3 as stated: with insertion lists, two transactions on
disjoint explicit keys merge cleanly, but executing the merged transaction
succeeds and produces a state that differs from sequential execution in either
order (both orders fail part-way, whether the first effect is kept or the
failed pair is discarded). -/
theorem c3_sequential_equivalence_counterexample :
    (InventoryTransaction.check_merge
        ⟨[(0, Slot.empty, .stack 5 ⟨0, .standard⟩)], [.stack 3 ⟨1, .standard⟩]⟩
        ⟨[(1, Slot.empty, .stack 5 ⟨1, .standard⟩)], [.stack 3 ⟨0, .standard⟩]⟩ =
      .ok ()) ∧
    (InventoryTransaction.executeState
        (InventoryTransaction.commit_merge
          ⟨[(0, Slot.empty, .stack 5 ⟨0, .standard⟩)], [.stack 3 ⟨1, .standard⟩]⟩
          ⟨[(1, Slot.empty, .stack 5 ⟨1, .standard⟩)], [.stack 3 ⟨0, .standard⟩]⟩)
        ⟨[.empty, .empty]⟩ =
      some ⟨[.stack 8 ⟨0, .standard⟩, .stack 8 ⟨1, .standard⟩]⟩) ∧
    (seqInv ⟨[(0, Slot.empty, .stack 5 ⟨0, .standard⟩)], [.stack 3 ⟨1, .standard⟩]⟩
        ⟨[(1, Slot.empty, .stack 5 ⟨1, .standard⟩)], [.stack 3 ⟨0, .standard⟩]⟩
        ⟨[.empty, .empty]⟩ = none) ∧
    (seqInv ⟨[(1, Slot.empty, .stack 5 ⟨1, .standard⟩)], [.stack 3 ⟨0, .standard⟩]⟩
        ⟨[(0, Slot.empty, .stack 5 ⟨0, .standard⟩)], [.stack 3 ⟨1, .standard⟩]⟩
        ⟨[.empty, .empty]⟩ = none) ∧
    (seqInvOn ⟨[(0, Slot.empty, .stack 5 ⟨0, .standard⟩)], [.stack 3 ⟨1, .standard⟩]⟩
        ⟨[(1, Slot.empty, .stack 5 ⟨1, .standard⟩)], [.stack 3 ⟨0, .standard⟩]⟩
        ⟨[.empty, .empty]⟩ =
      ⟨[.stack 5 ⟨0, .standard⟩, .stack 3 ⟨1, .standard⟩]⟩) ∧
    (seqInvOn ⟨[(1, Slot.empty, .stack 5 ⟨1, .standard⟩)], [.stack 3 ⟨0, .standard⟩]⟩
        ⟨[(0, Slot.empty, .stack 5 ⟨0, .standard⟩)], [.stack 3 ⟨1, .standard⟩]⟩
        ⟨[.empty, .empty]⟩ =
      ⟨[.stack 3 ⟨0, .standard⟩, .stack 5 ⟨1, .standard⟩]⟩) ∧
    ((⟨[.stack 8 ⟨0, .standard⟩, .stack 8 ⟨1, .standard⟩]⟩ : Inventory) ≠
      ⟨[.stack 5 ⟨0, .standard⟩, .stack 3 ⟨1, .standard⟩]⟩) ∧
    ((⟨[.stack 8 ⟨0, .standard⟩, .stack 8 ⟨1, .standard⟩]⟩ : Inventory) ≠
      ⟨[.stack 3 ⟨0, .standard⟩, .stack 5 ⟨1, .standard⟩]⟩) :=
  ⟨rfl, rfl, rfl, rfl, rfl, rfl, by decide, by decide⟩

/-- **C5 (amended).** `check` simulates the whole transaction: every explicit
replacement must find its expected old slot in bounds (a mismatch or
out-of-bounds index fails the check); on success the insertion list has been
placed in full, so the post-state total count equals the replaced state plus
everything inserted; `commit` installs the post-state and emits a single
output record (listing the changed keys); and a failed check leaves the
target untouched with no outputs. -/
theorem c5_check_simulates_commit_single_record :
    ∀ (t : InventoryTransaction) (inv : Inventory),
      (keysOfR t.replace).Nodup →
      (∀ i o n, (i, (o, n)) ∈ t.replace →
        (∀ res, t.check inv = .ok res → inv.slots[i]? = some o) ∧
        (inv.slots[i]? ≠ some o → ∀ res, t.check inv ≠ .ok res)) ∧
      (∀ chk, t.check inv = .ok (some chk) →
        t.executeOn inv = (⟨chk.new⟩, some [chk.change]) ∧
        totalCount chk.new =
          totalCount (foldSetR t.replace inv.slots) + totalCount t.insert) ∧
      (∀ e, t.check inv = .error e → t.executeOn inv = (inv, none)) := by
  intro t inv hnd
  by_cases hemp : (t.replace.isEmpty && t.insert.isEmpty) = true
  · have hck : t.check inv = .ok none := by
      unfold InventoryTransaction.check
      rw [if_pos hemp]
    rw [Bool.and_eq_true] at hemp
    have hrep : t.replace = [] := List.isEmpty_iff.1 hemp.1
    refine ⟨?_, ?_, ?_⟩
    · intro i o n hmem
      rw [hrep] at hmem
      exact absurd hmem (List.not_mem_nil _)
    · intro chk hchk
      rw [hck] at hchk
      injection hchk with h2
      exact Option.noConfusion h2
    · intro e he
      rw [hck] at he
      exact Except.noConfusion he
  · have hck : t.check inv =
        match applyReplaces t.replace inv.slots [] with
        | .error e => .error e
        | .ok (slots2, changed) =>
          match applyInserts t.insert slots2 changed with
          | .error e => .error e
          | .ok (slots3, changed3) => .ok (some ⟨slots3, ⟨changed3⟩⟩) := by
      unfold InventoryTransaction.check
      rw [if_neg hemp]
    have hL1 := stateOf_applyReplaces t.replace inv.slots [] hnd
    by_cases hpre : replacePreB t.replace inv.slots = true
    · rw [if_pos hpre] at hL1
      have hfact : ∀ i o n, (i, (o, n)) ∈ t.replace → inv.slots[i]? = some o := by
        intro i o n hmem
        have := List.all_eq_true.1 hpre (i, (o, n)) hmem
        simpa using this
      cases har : applyReplaces t.replace inv.slots [] with
      | error e0 =>
        rw [har] at hL1
        exact absurd hL1 (by simp [stateOf])
      | ok p =>
        obtain ⟨s2, c2⟩ := p
        rw [har] at hL1
        have hs2 : s2 = foldSetR t.replace inv.slots := by
          simpa [stateOf] using hL1
        have hck2 : t.check inv =
            match applyInserts t.insert s2 c2 with
            | .error e => .error e
            | .ok (slots3, changed3) => .ok (some ⟨slots3, ⟨changed3⟩⟩) := by
          rw [hck, har]
        refine ⟨?_, ?_, ?_⟩
        · intro i o n hmem
          exact ⟨fun _ _ => hfact i o n hmem,
            fun hne => absurd (hfact i o n hmem) hne⟩
        · intro chk hchk
          rw [hck2] at hchk
          cases hai : applyInserts t.insert s2 c2 with
          | error e0 =>
            rw [hai] at hchk
            exact Except.noConfusion hchk
          | ok q =>
            obtain ⟨s3, c3⟩ := q
            rw [hai] at hchk
            injection hchk with h2
            injection h2 with h3
            constructor
            · have hx : t.executeOn inv = (⟨chk.new⟩, some [chk.change]) := by
                unfold InventoryTransaction.executeOn
                rw [hck2, hai, ← h3]
                rfl
              exact hx
            · have hcons := totalCount_applyInserts t.insert s2 c2 (s3, c3) hai
              rw [← h3]
              simpa [hs2] using hcons
        · intro e he
          unfold InventoryTransaction.executeOn
          rw [he]
    · rw [if_neg hpre] at hL1
      cases har : applyReplaces t.replace inv.slots [] with
      | ok p =>
        rw [har] at hL1
        exact absurd hL1 (by simp [stateOf])
      | error e0 =>
        have hckE : t.check inv = .error e0 := by rw [hck, har]
        refine ⟨?_, ?_, ?_⟩
        · intro i o n hmem
          constructor
          · intro res hres
            rw [hckE] at hres
            exact Except.noConfusion hres
          · intro _ res hres
            rw [hckE] at hres
            exact Except.noConfusion hres
        · intro chk hchk
          rw [hckE] at hchk
          exact Except.noConfusion hchk
        · intro e he
          unfold InventoryTransaction.executeOn
          rw [he]

/-- Witness for C5: a replacement plus an insertion on a two-slot inventory,
with the inserted stack landing on the replaced stack. -/
theorem c5_check_simulates_commit_single_record_witness :
    InventoryTransaction.executeOn
        ⟨[(0, Slot.empty, .stack 5 ⟨0, .standard⟩)], [.stack 3 ⟨0, .standard⟩]⟩
        ⟨[.empty, .empty]⟩ =
      (⟨[.stack 8 ⟨0, .standard⟩, .empty]⟩, some [⟨[0, 0]⟩]) ∧
    totalCount [Slot.stack 8 ⟨0, .standard⟩, .empty] =
      totalCount (foldSetR [(0, Slot.empty, .stack 5 ⟨0, .standard⟩)]
          [Slot.empty, Slot.empty]) +
        totalCount [Slot.stack 3 ⟨0, .standard⟩] := by
  have h := (c5_check_simulates_commit_single_record
    ⟨[(0, Slot.empty, .stack 5 ⟨0, .standard⟩)], [.stack 3 ⟨0, .standard⟩]⟩
    ⟨[.empty, .empty]⟩ (by decide)).2.1
    ⟨[.stack 8 ⟨0, .standard⟩, .empty], ⟨[0, 0]⟩⟩ rfl
  exact h

/-- Counterexample for C5 as stated: a transaction changing two keys emits
one output record (whose `slots` field lists both keys), not one record per
changed key. -/
theorem c5_per_key_record_counterexample :
    InventoryTransaction.executeOn
        ⟨[(0, Slot.empty, .stack 5 ⟨0, .standard⟩),
          (1, Slot.empty, .stack 5 ⟨1, .standard⟩)], []⟩
        ⟨[.empty, .empty]⟩ =
      (⟨[.stack 5 ⟨0, .standard⟩, .stack 5 ⟨1, .standard⟩]⟩, some [⟨[0, 1]⟩]) ∧
    ([(⟨[0, 1]⟩ : InventoryChange)].length = 1 ∧
      (⟨[0, 1]⟩ : InventoryChange).slots.length = 2) :=
  ⟨rfl, rfl, rfl⟩

/-- Witness for C10: the different-tools case and the limit case at concrete
stacks (tool 0 is not tool 1; moving 3 onto 99 with limit 100 stops at 100). -/
theorem c10_unload_to_conserves_and_limits_witness :
    Slot.unload_to (.stack 3 ⟨0, .standard⟩) (.stack 5 ⟨1, .standard⟩) =
      (.stack 3 ⟨0, .standard⟩, .stack 5 ⟨1, .standard⟩, false) ∧
    (Slot.unload_to (.stack 3 ⟨0, .standard⟩)
        (.stack 99 ⟨0, .standard⟩)).2.1.count ≤
      max 99 (Tool.stack_limit ⟨0, .standard⟩).get :=
  ⟨(c10_unload_to_conserves_and_limits _ _).2.1 3 ⟨0, .standard⟩ 5 ⟨1, .standard⟩
      rfl rfl (by decide),
    (c10_unload_to_conserves_and_limits _ _).2.2 3 99 ⟨0, .standard⟩ rfl rfl⟩

end AllIsCubes
